import Mathlib

/-!
Verification of the filename-based episode detection and renaming core of the
repository (files `episode_detector.py`, `utils.py`, `config.py`).

The Python code is shallowly embedded over `List Char`.  Regular-expression
searches are embedded as deterministic scanners: every pattern of
`Config.EPISODE_PATTERNS` is an alternation-free pattern whose greedy `\d+` /
`\s*` runs are followed by a character that cannot belong to the run, so
Python's backtracking regex engine behaves exactly like maximal-munch
scanning; leftmost search is a left-to-right scan over start positions.
Character classes `\d`, `\s` and `\w` are embedded at their ASCII meaning.
All recursive functions are structural (or fuel-based with fuel that is,
by construction, sufficient), so that concrete inputs evaluate by `decide`.
-/

/-- Python `str.isspace` characters (ASCII range), used by `str.strip` and
by the regex class `\s`. -/
def pyWsB (c : Char) : Bool :=
  c = ' ' || c = '\t' || c = '\n' || c = '\x0b' || c = '\x0c' || c = '\r'

/-- The characters replaced by `utils.safe_filename`:  `< > : " / \ | ? *`. -/
def invalidChars : List Char := ['<', '>', ':', '\"', '/', '\\', '|', '?', '*']

/-- Word characters for the regex boundary `\b` (ASCII range of `\w`). -/
def isWordChar (c : Char) : Bool := c.isAlphanum || c = '_'

/-- Value of a decimal digit run, i.e. Python `int()` applied to a string of
digits (which never raises). -/
def digitsToNat (l : List Char) : Nat :=
  l.foldl (fun n c => n * 10 + (c.toNat - '0'.toNat)) 0

/-- Decimal rendering of a natural number, with explicit fuel so that it is
structurally recursive; `natToDigits` supplies sufficient fuel.  This embeds
Python `str(n)` for nonnegative `n`. -/
def natToDigitsF : Nat → Nat → List Char
  | 0, _ => []
  | fuel + 1, n =>
    if n < 10 then [Nat.digitChar n]
    else natToDigitsF fuel (n / 10) ++ [Nat.digitChar (n % 10)]
  termination_by structural fuel _ => fuel

/-- Python `str(n)` for a natural number. -/
def natToDigits (n : Nat) : List Char := natToDigitsF (n + 1) n

/-- Python `str.zfill(2)`: left-pad with zeros to width 2. -/
def zfill2 (l : List Char) : List Char :=
  if l.length < 2 then List.replicate (2 - l.length) '0' ++ l else l

/-- Python `x or d` for a string `x`: the empty string is falsy. -/
def pyOrStr (x d : List Char) : List Char := if x = [] then d else x

/-- Python `x or d` for `x : Optional[int]`: both `None` and `0` are falsy. -/
def pyOrNat (x : Option Nat) (d : Nat) : Nat :=
  match x with
  | none => d
  | some 0 => d
  | some n => n

/-- Case-insensitive prefix test (Python `re.IGNORECASE` literal matching,
ASCII case folding). -/
def ciIsPrefixOf : List Char → List Char → Bool
  | [], _ => true
  | _ :: _, [] => false
  | p :: ps, c :: cs => (p.toLower == c.toLower) && ciIsPrefixOf ps cs

/-! ## `os.path.splitext` (posix) and the `utils.py` filename helpers -/

/-- Index of the last occurrence of a character in a list (Python
`str.rfind`, as an `Option` instead of `-1`). -/
def lastIdxOf (a : Char) : List Char → Option Nat
  | [] => none
  | c :: cs =>
    match lastIdxOf a cs with
    | some i => some (i + 1)
    | none => if c = a then some 0 else none

/-- The branch of `posixpath.splitext` taken once the last dot is known to
come after the last separator: split at the dot unless every character
between the separator and the dot is itself a dot. -/
def splitextCore (l : List Char) (d startIdx : Nat) : List Char × List Char :=
  if ((l.drop startIdx).take (d - startIdx)).any (fun c => !(c == '.')) then
    (l.take d, l.drop d)
  else (l, [])

/-- `posixpath.splitext`: split a path into root and extension. -/
def splitext (l : List Char) : List Char × List Char :=
  match lastIdxOf '.' l, lastIdxOf '/' l with
  | none, _ => (l, [])
  | some d, none => splitextCore l d 0
  | some d, some s => if s < d then splitextCore l d (s + 1) else (l, [])

/-- `utils.get_file_name_without_extension`. -/
def get_file_name_without_ext (l : List Char) : List Char := (splitext l).1

/-- `utils.get_file_extension`: `os.path.splitext(filename)[1].lower()`. -/
def get_file_ext (l : List Char) : List Char := (splitext l).2.map Char.toLower

/-- Python `str.strip()` (whitespace from both ends). -/
def pyStrip (l : List Char) : List Char :=
  ((l.dropWhile pyWsB).reverse.dropWhile pyWsB).reverse

/-- `utils.safe_filename`, replacement part: for each invalid character in
turn, replace every occurrence by an underscore (`str.replace` with a
single-character pattern is a pointwise map). -/
def replaceInvalid (s : List Char) : List Char :=
  invalidChars.foldl (fun acc a => acc.map (fun c => if c = a then '_' else c)) s

/-- `utils.safe_filename`: replace the invalid characters, then strip. -/
def safe_filename (s : List Char) : List Char := pyStrip (replaceInvalid s)

/-! ## The eight season/episode patterns of `Config.EPISODE_PATTERNS`

Each `tryPk` matches pattern `k` at the head of the list and returns the
captured groups together with the rest of the input after the match; each
`searchPk` embeds `re.search` (leftmost match) and returns the integer
values of the captured groups. -/

/-- Pattern 1, `[Ss](\d+)[Ee](\d+)`, matched at the head. -/
def tryP1 (l : List Char) : Option ((List Char × List Char) × List Char) :=
  match l with
  | [] => none
  | c :: rest =>
    if c = 'S' ∨ c = 's' then
      let ds := rest.takeWhile Char.isDigit
      let r := rest.dropWhile Char.isDigit
      if ds = [] then none
      else
        match r with
        | c2 :: rest2 =>
          if c2 = 'E' ∨ c2 = 'e' then
            let es := rest2.takeWhile Char.isDigit
            if es = [] then none
            else some ((ds, es), rest2.dropWhile Char.isDigit)
          else none
        | [] => none
    else none

/-- `re.search` for pattern 1. -/
def searchP1 : List Char → Option (Nat × Nat)
  | [] => none
  | c :: rest =>
    match tryP1 (c :: rest) with
    | some ((ds, es), _) => some (digitsToNat ds, digitsToNat es)
    | none => searchP1 rest

/-- Skip a case-insensitive literal, returning the rest of the input. -/
def dropCILit (pat l : List Char) : Option (List Char) :=
  if ciIsPrefixOf pat l then some (l.drop pat.length) else none

/-- Greedy `\s*` followed by a mandatory `(\d+)` group: returns the digit
group and the rest. -/
def wsThenDigits (l : List Char) : Option (List Char × List Char) :=
  let r := l.dropWhile pyWsB
  let ds := r.takeWhile Char.isDigit
  if ds = [] then none else some (ds, r.dropWhile Char.isDigit)

/-- Pattern 2, `[Ss]eason\s*(\d+)\s*[Ee]pisode\s*(\d+)` (case-insensitive),
matched at the head. -/
def tryP2 (l : List Char) : Option ((List Char × List Char) × List Char) :=
  match dropCILit ['s', 'e', 'a', 's', 'o', 'n'] l with
  | none => none
  | some r1 =>
    match wsThenDigits r1 with
    | none => none
    | some (ds, r2) =>
      match dropCILit ['e', 'p', 'i', 's', 'o', 'd', 'e'] (r2.dropWhile pyWsB) with
      | none => none
      | some r3 =>
        match wsThenDigits r3 with
        | none => none
        | some (es, r4) => some ((ds, es), r4)

/-- `re.search` for pattern 2. -/
def searchP2 : List Char → Option (Nat × Nat)
  | [] => none
  | c :: rest =>
    match tryP2 (c :: rest) with
    | some ((ds, es), _) => some (digitsToNat ds, digitsToNat es)
    | none => searchP2 rest

/-- Pattern 3, `(\d+)x(\d+)` (case-insensitive, so `x` or `X`), matched at
the head. -/
def tryP3 (l : List Char) : Option ((List Char × List Char) × List Char) :=
  let ds := l.takeWhile Char.isDigit
  if ds = [] then none
  else
    match l.dropWhile Char.isDigit with
    | c :: rest =>
      if c = 'x' ∨ c = 'X' then
        let es := rest.takeWhile Char.isDigit
        if es = [] then none else some ((ds, es), rest.dropWhile Char.isDigit)
      else none
    | [] => none

/-- `re.search` for pattern 3. -/
def searchP3 : List Char → Option (Nat × Nat)
  | [] => none
  | c :: rest =>
    match tryP3 (c :: rest) with
    | some ((ds, es), _) => some (digitsToNat ds, digitsToNat es)
    | none => searchP3 rest

/-- Pattern 4, `[Ee](\d+)`, matched at the head. -/
def tryP4 (l : List Char) : Option (List Char × List Char) :=
  match l with
  | [] => none
  | c :: rest =>
    if c = 'E' ∨ c = 'e' then
      let ds := rest.takeWhile Char.isDigit
      if ds = [] then none else some (ds, rest.dropWhile Char.isDigit)
    else none

/-- `re.search` for pattern 4. -/
def searchP4 : List Char → Option Nat
  | [] => none
  | c :: rest =>
    match tryP4 (c :: rest) with
    | some (ds, _) => some (digitsToNat ds)
    | none => searchP4 rest

/-- Pattern 5, `[Ee]pisode\s*(\d+)` (case-insensitive), matched at the head. -/
def tryP5 (l : List Char) : Option (List Char × List Char) :=
  match dropCILit ['e', 'p', 'i', 's', 'o', 'd', 'e'] l with
  | none => none
  | some r1 => wsThenDigits r1

/-- `re.search` for pattern 5. -/
def searchP5 : List Char → Option Nat
  | [] => none
  | c :: rest =>
    match tryP5 (c :: rest) with
    | some (ds, _) => some (digitsToNat ds)
    | none => searchP5 rest

/-- Pattern 6, `- (\d+)`, matched at the head. -/
def tryP6 (l : List Char) : Option (List Char × List Char) :=
  match l with
  | '-' :: ' ' :: rest =>
    let ds := rest.takeWhile Char.isDigit
    if ds = [] then none else some (ds, rest.dropWhile Char.isDigit)
  | _ => none

/-- `re.search` for pattern 6. -/
def searchP6 : List Char → Option Nat
  | [] => none
  | c :: rest =>
    match tryP6 (c :: rest) with
    | some (ds, _) => some (digitsToNat ds)
    | none => searchP6 rest

/-- Pattern 7, `_(\d+)_`, matched at the head. -/
def tryP7 (l : List Char) : Option (List Char × List Char) :=
  match l with
  | '_' :: rest =>
    let ds := rest.takeWhile Char.isDigit
    if ds = [] then none
    else
      match rest.dropWhile Char.isDigit with
      | '_' :: rest2 => some (ds, rest2)
      | _ => none
  | _ => none

/-- `re.search` for pattern 7. -/
def searchP7 : List Char → Option Nat
  | [] => none
  | c :: rest =>
    match tryP7 (c :: rest) with
    | some (ds, _) => some (digitsToNat ds)
    | none => searchP7 rest

/-- Pattern 8, `\.(\d+)\.`, matched at the head. -/
def tryP8 (l : List Char) : Option (List Char × List Char) :=
  match l with
  | '.' :: rest =>
    let ds := rest.takeWhile Char.isDigit
    if ds = [] then none
    else
      match rest.dropWhile Char.isDigit with
      | '.' :: rest2 => some (ds, rest2)
      | _ => none
  | _ => none

/-- `re.search` for pattern 8. -/
def searchP8 : List Char → Option Nat
  | [] => none
  | c :: rest =>
    match tryP8 (c :: rest) with
    | some (ds, _) => some (digitsToNat ds)
    | none => searchP8 rest

/-- `re.findall(r'\d+', ...)`: the maximal digit runs of the input, in
order.  Fuel-based structural recursion; `digitRuns` supplies fuel equal to
the input length, which suffices because every step consumes at least one
character. -/
def digitRunsF : Nat → List Char → List (List Char)
  | 0, _ => []
  | fuel + 1, l =>
    match l with
    | [] => []
    | c :: rest =>
      if c.isDigit then
        (c :: rest.takeWhile Char.isDigit) :: digitRunsF fuel (rest.dropWhile Char.isDigit)
      else digitRunsF fuel rest
  termination_by structural fuel _ => fuel

/-- All maximal digit runs of the input. -/
def digitRuns (l : List Char) : List (List Char) := digitRunsF l.length l

/-- `EpisodeDetector._extract_episode_season`: try the eight patterns in
order (the first match wins; patterns 1 to 3 capture season and episode,
patterns 4 to 8 capture the episode only, with season defaulting to 1);
if none matches, use the last digit run as episode with season 1; with no
digits at all return `(none, none)`.  `int()` on a captured digit run never
raises, so the source's `except ValueError: continue` branches are dead. -/
def extract_episode_season (name : List Char) : Option Nat × Option Nat :=
  match searchP1 name with
  | some (s, e) => (some s, some e)
  | none =>
  match searchP2 name with
  | some (s, e) => (some s, some e)
  | none =>
  match searchP3 name with
  | some (s, e) => (some s, some e)
  | none =>
  match searchP4 name with
  | some e => (some 1, some e)
  | none =>
  match searchP5 name with
  | some e => (some 1, some e)
  | none =>
  match searchP6 name with
  | some e => (some 1, some e)
  | none =>
  match searchP7 name with
  | some e => (some 1, some e)
  | none =>
  match searchP8 name with
  | some e => (some 1, some e)
  | none =>
  match (digitRuns name).getLast? with
  | some r => (some 1, some (digitsToNat r))
  | none => (none, none)

/-! ## Global regex substitution (`re.sub`), with previous-character
tracking for word boundaries

`gsubPF` scans left to right: at each position it asks the matcher for the
rest of the input after a match at that position; on a match it emits the
replacement and resumes after the match, otherwise it emits the current
character and moves on.  `prev` is the character just before the current
position (needed for `\b`).  Fuel equal to the input length suffices since
every step consumes at least one character. -/
def gsubPF : Nat → (Option Char → List Char → Option (List Char)) →
    List Char → Option Char → List Char → List Char
  | 0, _, _, _, l => l
  | _ + 1, _, _, _, [] => []
  | fuel + 1, m, repl, prev, c :: rest =>
    match m prev (c :: rest) with
    | some rest2 =>
      repl ++ gsubPF fuel m repl
        (((c :: rest).take ((c :: rest).length - rest2.length)).getLast?) rest2
    | none => c :: gsubPF fuel m repl (some c) rest
  termination_by structural fuel _ _ _ _ => fuel

/-- `re.sub` for a matcher that does not look at the previous character. -/
def gsub (m : List Char → Option (List Char)) (repl l : List Char) : List Char :=
  gsubPF l.length (fun _ s => m s) repl none l

/-- `re.sub` for a boundary-sensitive matcher. -/
def gsubB (m : Option Char → List Char → Option (List Char)) (repl l : List Char) :
    List Char :=
  gsubPF l.length m repl none l

/-- Try a list of case-insensitive literal alternatives in order (regex
alternation picks the first alternative that matches, not the longest);
returns matched text and rest. -/
def altMatch (alts : List (List Char)) (l : List Char) : Option (List Char × List Char) :=
  match alts with
  | [] => none
  | a :: rest =>
    if ciIsPrefixOf a l then some (l.take a.length, l.drop a.length)
    else altMatch rest l

/-- `re.search` for a group of case-insensitive literal alternatives;
returns the matched text (the capture of the single group). -/
def searchAlts (alts : List (List Char)) : List Char → Option (List Char)
  | [] => none
  | c :: rest =>
    match altMatch alts (c :: rest) with
    | some (mt, _) => some mt
    | none => searchAlts alts rest

/-- Case-sensitive substring test (`re.search` on a plain literal). -/
def containsSub (pat : List Char) : List Char → Bool
  | [] => pat.isEmpty
  | c :: rest => pat.isPrefixOf (c :: rest) || containsSub pat rest

/-- `Config.QUALITY_PATTERNS`, first group. -/
def q1Alts : List (List Char) :=
  ["720p".data, "1080p".data, "1440p".data, "2160p".data, "4K".data, "8K".data]

/-- `Config.QUALITY_PATTERNS`, second group. -/
def q2Alts : List (List Char) := ["HD".data, "FHD".data, "UHD".data, "SD".data]

/-- `Config.QUALITY_PATTERNS`, third group. -/
def q3Alts : List (List Char) :=
  ["WEB-DL".data, "BluRay".data, "BRRip".data, "DVDRip".data, "HDTV".data, "WEBRip".data]

/-- `Config.AUDIO_PATTERNS`, first group. -/
def a1Alts : List (List Char) :=
  ["AAC".data, "AC3".data, "DTS".data, "FLAC".data, "MP3".data, "OGG".data,
    "PCM".data, "TrueHD".data, "Atmos".data]

/-- `Config.AUDIO_PATTERNS`, second group (`2\.0|5\.1|7\.1`). -/
def a2Alts : List (List Char) := ["2.0".data, "5.1".data, "7.1".data]

/-- `Config.AUDIO_PATTERNS`, third group. -/
def a3Alts : List (List Char) := ["Stereo".data, "Mono".data]

/-- `EpisodeDetector._extract_quality`. -/
def extract_quality (name : List Char) : List Char :=
  match searchAlts q1Alts name with
  | some m => m.map Char.toUpper
  | none =>
  match searchAlts q2Alts name with
  | some m => m.map Char.toUpper
  | none =>
  match searchAlts q3Alts name with
  | some m => m.map Char.toUpper
  | none =>
  if containsSub "720".data name then "720p".data
  else if containsSub "1080".data name then "1080p".data
  else if (searchAlts ["2160".data, "4K".data] name).isSome then "4K".data
  else "Unknown".data

/-- `EpisodeDetector._extract_audio`. -/
def extract_audio (name : List Char) : List Char :=
  match searchAlts a1Alts name with
  | some m => m.map Char.toUpper
  | none =>
  match searchAlts a2Alts name with
  | some m => m.map Char.toUpper
  | none =>
  match searchAlts a3Alts name with
  | some m => m.map Char.toUpper
  | none => "Unknown".data

/-- The separator class `[._\-\[\]()]` of `_extract_show_name`. -/
def sepMatcher (l : List Char) : Option (List Char) :=
  match l with
  | c :: rest =>
    if c = '.' ∨ c = '_' ∨ c = '-' ∨ c = '[' ∨ c = ']' ∨ c = '(' ∨ c = ')' then some rest
    else none
  | [] => none

/-- The whitespace-run pattern `\s+`. -/
def wsMatcher (l : List Char) : Option (List Char) :=
  match l with
  | c :: rest => if pyWsB c then some (rest.dropWhile pyWsB) else none
  | [] => none

/-- Word-boundary-delimited alternation `\b(a|b|...)\b`: an alternative
matches when the literal matches and the next character is not a word
character; on a failed trailing boundary the engine backtracks into the
next alternative. -/
def rgAlts : List (List Char) → List Char → Option (List Char)
  | [], _ => none
  | a :: rest, l =>
    if ciIsPrefixOf a l then
      let r := l.drop a.length
      if (match r.head? with | none => true | some c => !isWordChar c) then some r
      else rgAlts rest l
    else rgAlts rest l

/-- Matcher for `\b(...)\b`: the leading boundary holds when the previous
character is absent or not a word character (all alternatives start with a
word character). -/
def rgMatcher (alts : List (List Char)) (prev : Option Char) (l : List Char) :
    Option (List Char) :=
  if (match prev with | none => true | some p => !isWordChar p) then rgAlts alts l
  else none

/-- Release-group and codec tokens removed by `_extract_show_name`. -/
def rg1Alts : List (List Char) :=
  ["x264".data, "x265".data, "h264".data, "h265".data, "hevc".data, "avc".data]

/-- Source tags removed by `_extract_show_name`. -/
def rg2Alts : List (List Char) :=
  ["web-dl".data, "webrip".data, "bluray".data, "brrip".data, "dvdrip".data,
    "hdtv".data, "hdcam".data]

/-- Python `str.title()` (ASCII): a letter after a non-letter is uppercased,
a letter after a letter is lowercased. -/
def pyTitleAux : Bool → List Char → List Char
  | _, [] => []
  | prevCased, c :: rest =>
    if c.isAlpha then (if prevCased then c.toLower else c.toUpper) :: pyTitleAux true rest
    else c :: pyTitleAux false rest

/-- Python `str.title()`. -/
def pyTitle (l : List Char) : List Char := pyTitleAux false l

/-- The stripping/normalisation pipeline of `_extract_show_name` (lines
104-127): remove all episode, quality and audio pattern matches; turn
separators into spaces; collapse whitespace and strip; remove codec and
source tags at word boundaries; collapse and strip again. -/
def showNamePipeline (name : List Char) : List Char :=
  let n := gsub (fun l => (tryP1 l).map (fun x => x.2)) [] name
  let n := gsub (fun l => (tryP2 l).map (fun x => x.2)) [] n
  let n := gsub (fun l => (tryP3 l).map (fun x => x.2)) [] n
  let n := gsub (fun l => (tryP4 l).map (fun x => x.2)) [] n
  let n := gsub (fun l => (tryP5 l).map (fun x => x.2)) [] n
  let n := gsub (fun l => (tryP6 l).map (fun x => x.2)) [] n
  let n := gsub (fun l => (tryP7 l).map (fun x => x.2)) [] n
  let n := gsub (fun l => (tryP8 l).map (fun x => x.2)) [] n
  let n := gsub (fun l => (altMatch q1Alts l).map (fun x => x.2)) [] n
  let n := gsub (fun l => (altMatch q2Alts l).map (fun x => x.2)) [] n
  let n := gsub (fun l => (altMatch q3Alts l).map (fun x => x.2)) [] n
  let n := gsub (fun l => (altMatch a1Alts l).map (fun x => x.2)) [] n
  let n := gsub (fun l => (altMatch a2Alts l).map (fun x => x.2)) [] n
  let n := gsub (fun l => (altMatch a3Alts l).map (fun x => x.2)) [] n
  let n := gsub sepMatcher [' '] n
  let n := pyStrip (gsub wsMatcher [' '] n)
  let n := gsubB (rgMatcher rg1Alts) [] n
  let n := gsubB (rgMatcher rg2Alts) [] n
  pyStrip (gsub wsMatcher [' '] n)

/-- `EpisodeDetector._extract_show_name`: run the pipeline; if fewer than 2
characters remain, fall back to `get_file_name_without_extension(filename)`
(note: applied to the argument, which is itself already extension-stripped);
finally title-case. -/
def extract_show_name (name : List Char) : List Char :=
  let n := showNamePipeline name
  if n.length < 2 then pyTitle (get_file_name_without_ext name) else pyTitle n

/-- The `EpisodeInfo` dataclass of `episode_detector.py`; integers are
embedded as `Nat` since all captured values are decimal digit runs. -/
structure EpisodeInfo where
  season : Option Nat := none
  episode : Option Nat := none
  show_name : List Char := []
  quality : List Char := []
  audio : List Char := []
  original_filename : List Char := []
  extension : List Char := []

/-- `EpisodeDetector.detect_episode_info`. -/
def detect_episode_info (filename : List Char) : EpisodeInfo :=
  let clean := get_file_name_without_ext filename
  let se := extract_episode_season clean
  { season := se.1
    episode := se.2
    show_name := extract_show_name clean
    quality := extract_quality clean
    audio := extract_audio clean
    original_filename := filename
    extension := get_file_ext filename }

/-! ## `EpisodeDetector.generate_new_filename`

The `template` argument models the resolved value of
`custom_template or self.rename_template`; `channel` models
`self.custom_channel`. -/

/-- Python `str.replace(pat, v)` for a nonempty pattern: replace every
non-overlapping occurrence, scanning left to right.  Fuel-based structural
recursion; `replaceAll` supplies sufficient fuel. -/
def replaceAllF : Nat → List Char → List Char → List Char → List Char
  | 0, _, _, s => s
  | _ + 1, _, _, [] => []
  | fuel + 1, pat, v, c :: rest =>
    if pat.isPrefixOf (c :: rest) then
      v ++ replaceAllF fuel pat v (rest.drop (pat.length - 1))
    else c :: replaceAllF fuel pat v rest
  termination_by structural fuel _ _ _ => fuel

/-- Python `str.replace(pat, v)` for a nonempty pattern. -/
def replaceAll (pat v s : List Char) : List Char := replaceAllF s.length pat v s

/-- The placeholder literal for a key: the characters of the Python
f-string `f'{...}'` wrapping, i.e. an opening brace, the key, a closing
brace. -/
def placeholder (k : List Char) : List Char := '{' :: (k ++ ['}'])

/-- The `'Season'` entry of the replacements table:
`str(episode_info.season or 1).zfill(2)` (note Python `or`: a season of
`None` or `0` falls back to 1). -/
def seasonField (s : Option Nat) : List Char := zfill2 (natToDigits (pyOrNat s 1))

/-- The `'Episode'` entry of the replacements table:
`str(episode_info.episode or 1).zfill(2)` (note Python `or`: an episode of
`None` or `0` falls back to 1). -/
def episodeField (e : Option Nat) : List Char := zfill2 (natToDigits (pyOrNat e 1))

/-- The replacements table of `generate_new_filename`, in insertion order. -/
def replacementsList (channel : List Char) (info : EpisodeInfo) :
    List (List Char × List Char) :=
  [("Season".data, seasonField info.season),
    ("Episode".data, episodeField info.episode),
    ("ShowName".data, pyOrStr info.show_name "Unknown Show".data),
    ("Quality".data, pyOrStr info.quality "Unknown".data),
    ("Audio".data, pyOrStr info.audio "Unknown".data),
    ("Channel".data, pyOrStr channel "Unknown".data),
    ("Extension".data, pyOrStr info.extension ".mkv".data)]

/-- The literal suffix `.{Extension}` checked by `template.endswith`. -/
def extSuffix : List Char := ".{Extension}".data

/-- `EpisodeDetector.generate_new_filename`: strip a trailing
`.{Extension}` from the template, substitute the seven placeholders in
table order, append the extension value, and sanitize. -/
def generate_new_filename (channel : List Char) (info : EpisodeInfo)
    (template : List Char) : List Char :=
  let t1 := if extSuffix.isSuffixOf template then
      template.take (template.length - 12)
    else template
  let body := (replacementsList channel info).foldl
    (fun s kv => replaceAll (placeholder kv.1) kv.2 s) t1
  safe_filename (body ++ pyOrStr info.extension ".mkv".data)

/-! ## C1: SxxEyy tokens -/

/-- The head of the list, if any, is not a digit. -/
def headNotDigitB (l : List Char) : Bool :=
  match l with
  | [] => true
  | c :: _ => !c.isDigit

/-- A decomposition of `name` exhibiting an `S<digits>E<digits>` token (any
letter case) starting after the prefix `pre`, with maximal digit runs `ds`
(season) and `es` (episode): the episode run is followed by a non-digit or
the end of the name.  This is exactly the condition under which the regex
`[Ss](\d+)[Ee](\d+)` matches at position `pre.length` with groups `ds`,
`es`. -/
def SEDecomp (name pre ds es post : List Char) (c1 c2 : Char) : Prop :=
  name = pre ++ c1 :: (ds ++ c2 :: (es ++ post)) ∧
  (c1 = 'S' ∨ c1 = 's') ∧ (c2 = 'E' ∨ c2 = 'e') ∧
  ds ≠ [] ∧ es ≠ [] ∧
  ds.all Char.isDigit = true ∧ es.all Char.isDigit = true ∧
  headNotDigitB post = true

/-! ## Theorems -/

/-- Season and episode are both present or both absent in the result of
`_extract_episode_season`. -/
theorem extract_season_none_iff (name : List Char) :
    (extract_episode_season name).1 = none ↔ (extract_episode_season name).2 = none := by
  unfold extract_episode_season
  repeat' split
  all_goals simp

/-- C10: for every input filename, the season and episode fields of the
`EpisodeInfo` returned by `detect_episode_info` are both absent or both
present (each pattern either captures both or defaults the season to 1, and
the digit fallback also sets both); whenever present they are natural
numbers parsed from decimal digit runs, hence nonnegative. -/
theorem c10_season_episode_linked (f : List Char) :
    ((detect_episode_info f).season = none ↔ (detect_episode_info f).episode = none) := by
  have h := extract_season_none_iff (get_file_name_without_ext f)
  simpa [detect_episode_info] using h

/-- C4 counterexample: the filename `S0E1.mkv` is detected with season 0,
which is neither absent nor at least 1. -/
theorem c4_counterexample :
    (detect_episode_info ("S0E1.mkv".data)).season = some 0 ∧ ¬ (1 ≤ 0) := by
  decide

/-- C4 amended: the season field is either absent or a nonnegative integer;
whenever none of the three two-capture patterns (`SxxEyy`,
`Season x Episode y`, `NxM`) matches, it is absent or exactly 1 (the
defaulted value), but a two-capture pattern may capture a season of 0. -/
theorem c4_amended_season_default (f : List Char)
    (h1 : searchP1 (get_file_name_without_ext f) = none)
    (h2 : searchP2 (get_file_name_without_ext f) = none)
    (h3 : searchP3 (get_file_name_without_ext f) = none) :
    (detect_episode_info f).season = none ∨ (detect_episode_info f).season = some 1 := by
  have : (extract_episode_season (get_file_name_without_ext f)).1 = none ∨
      (extract_episode_season (get_file_name_without_ext f)).1 = some 1 := by
    unfold extract_episode_season
    rw [h1, h2, h3]
    repeat' split
    all_goals simp_all
  simpa [detect_episode_info] using this

/-- Witness for C4 amended at the concrete filename `abc 42.mkv`. -/
theorem c4_amended_season_default_witness :
    (searchP1 (get_file_name_without_ext ("abc 42.mkv".data)) = none ∧
      searchP2 (get_file_name_without_ext ("abc 42.mkv".data)) = none ∧
      searchP3 (get_file_name_without_ext ("abc 42.mkv".data)) = none) ∧
    ((detect_episode_info ("abc 42.mkv".data)).season = none ∨
      (detect_episode_info ("abc 42.mkv".data)).season = some 1) :=
  ⟨by decide, c4_amended_season_default _ (by decide) (by decide) (by decide)⟩

/-- C3: when none of the eight season/episode patterns matches the
extension-stripped name, the fallback applies: with no digit run at all the
result is `(none, none)`; otherwise season is 1 and the episode is the
integer value of the last digit run. -/
theorem c3_fallback_last_digit_run (name : List Char)
    (h1 : searchP1 name = none) (h2 : searchP2 name = none)
    (h3 : searchP3 name = none) (h4 : searchP4 name = none)
    (h5 : searchP5 name = none) (h6 : searchP6 name = none)
    (h7 : searchP7 name = none) (h8 : searchP8 name = none) :
    (digitRuns name = [] → extract_episode_season name = (none, none)) ∧
    (∀ rs r, digitRuns name = rs ++ [r] →
      extract_episode_season name = (some 1, some (digitsToNat r))) := by
  unfold extract_episode_season
  rw [h1, h2, h3, h4, h5, h6, h7, h8]
  constructor
  · intro h
    rw [h]
    simp
  · intro rs r h
    rw [h]
    simp [List.getLast?_concat]

/-- Witness for C3 at the concrete name `abc 7x`: no pattern matches
(`7x` is not followed by a digit, so pattern 3 fails too) and the last
digit run is `7`. -/
theorem c3_fallback_last_digit_run_witness :
    (searchP1 ("ab 12 cd 7x".data) = none ∧ searchP2 ("ab 12 cd 7x".data) = none ∧
      searchP3 ("ab 12 cd 7x".data) = none ∧ searchP4 ("ab 12 cd 7x".data) = none ∧
      searchP5 ("ab 12 cd 7x".data) = none ∧ searchP6 ("ab 12 cd 7x".data) = none ∧
      searchP7 ("ab 12 cd 7x".data) = none ∧ searchP8 ("ab 12 cd 7x".data) = none) ∧
    extract_episode_season ("ab 12 cd 7x".data) = (some 1, some (digitsToNat ['7'])) :=
  ⟨by decide,
    (c3_fallback_last_digit_run _ (by decide) (by decide) (by decide) (by decide)
      (by decide) (by decide) (by decide) (by decide)).2 [['1', '2']] ['7'] (by decide)⟩

/-- Splitting `takeWhile`/`dropWhile` at a digit run followed by a
non-digit. -/
theorem takeWhile_digits_split (ds r : List Char) (hds : ds.all Char.isDigit = true)
    (hr : headNotDigitB r = true) :
    (ds ++ r).takeWhile Char.isDigit = ds ∧ (ds ++ r).dropWhile Char.isDigit = r := by
  induction ds with
  | nil =>
    cases r with
    | nil => simp
    | cons c cs =>
      simp only [headNotDigitB, Bool.not_eq_true'] at hr
      simp [List.takeWhile_cons, List.dropWhile_cons, hr]
  | cons d ds ih =>
    simp only [List.all_cons, Bool.and_eq_true] at hds
    have := ih hds.2
    simp [List.takeWhile_cons, List.dropWhile_cons, hds.1, this.1, this.2]

/-- All elements of a `takeWhile` satisfy the predicate. -/
theorem all_takeWhile (p : Char → Bool) (l : List Char) :
    (l.takeWhile p).all p = true := by
  simp only [List.all_eq_true]
  intro x hx
  exact List.mem_takeWhile_imp hx

/-- The rest after a `dropWhile` starts with a failing element, if any. -/
theorem headNotDigitB_dropWhile (l : List Char) :
    headNotDigitB (l.dropWhile Char.isDigit) = true := by
  induction l with
  | nil => rfl
  | cons c cs ih =>
    by_cases hc : c.isDigit
    · simpa [List.dropWhile_cons, hc] using ih
    · simp [List.dropWhile_cons, hc, headNotDigitB]

/-- `tryP1` succeeds on an SE decomposition at the head. -/
theorem tryP1_complete (ds es post : List Char) (c1 c2 : Char)
    (h : SEDecomp (c1 :: (ds ++ c2 :: (es ++ post))) [] ds es post c1 c2) :
    tryP1 (c1 :: (ds ++ c2 :: (es ++ post))) = some ((ds, es), post) := by
  obtain ⟨-, hc1, hc2, hds, hes, hdall, heall, hpost⟩ := h
  have hc2d : headNotDigitB (c2 :: (es ++ post)) = true := by
    rcases hc2 with h | h <;> simp [headNotDigitB, h, Char.isDigit]
  have h1 := takeWhile_digits_split ds (c2 :: (es ++ post)) hdall hc2d
  have h2 := takeWhile_digits_split es post heall hpost
  simp only [tryP1]
  rw [if_pos hc1]
  simp only [h1.1, h1.2]
  rw [if_neg hds]
  rw [if_pos hc2]
  simp only [h2.1, h2.2]
  rw [if_neg hes]

/-- A successful `tryP1` yields an SE decomposition at the head. -/
theorem tryP1_sound (l ds es rest : List Char)
    (h : tryP1 l = some ((ds, es), rest)) :
    ∃ c1 c2 post, SEDecomp l [] ds es post c1 c2 := by
  cases l with
  | nil => simp [tryP1] at h
  | cons c r =>
    simp only [tryP1] at h
    repeat' split at h
    all_goals try exact Option.noConfusion h
    rename_i hc hds rx c2 rest2 hdw hc2 hes
    simp only [Option.some.injEq, Prod.mk.injEq] at h
    obtain ⟨⟨hds2, hes2⟩, hrest⟩ := h
    refine ⟨c, c2, rest2.dropWhile Char.isDigit, ?_, hc, hc2, ?_, ?_, ?_, ?_, ?_⟩
    · have h1 : r = ds ++ (c2 :: rest2) := by
        rw [← hds2, ← hdw]
        exact (List.takeWhile_append_dropWhile ..).symm
      have h2 : rest2 = es ++ rest2.dropWhile Char.isDigit := by
        conv_lhs => rw [← List.takeWhile_append_dropWhile (p := Char.isDigit) (l := rest2)]
        rw [hes2]
      simp only [List.nil_append]
      rw [h1]
      congr 1
      rw [← h2]
    · rwa [← hds2]
    · rwa [← hes2]
    · rw [← hds2]; exact all_takeWhile ..
    · rw [← hes2]; exact all_takeWhile ..
    · exact headNotDigitB_dropWhile rest2

/-- `searchP1` finds the leftmost SE token and returns its captures. -/
theorem searchP1_of_leftmost :
    ∀ (pre name ds es post : List Char) (c1 c2 : Char),
      SEDecomp name pre ds es post c1 c2 →
      (∀ pre' ds' es' post' c1' c2', SEDecomp name pre' ds' es' post' c1' c2' →
        pre.length ≤ pre'.length) →
      searchP1 name = some (digitsToNat ds, digitsToNat es)
  | [], name, ds, es, post, c1, c2, hdec, _ => by
    have hname := hdec.1
    simp only [List.nil_append] at hname
    subst hname
    have := tryP1_complete ds es post c1 c2 (by simpa [SEDecomp] using hdec)
    unfold searchP1
    rw [this]
  | a :: pre', name, ds, es, post, c1, c2, hdec, hmin => by
    have hname := hdec.1
    cases name with
    | nil => exact absurd hname (by simp)
    | cons b rest =>
      simp only [List.cons_append, List.cons.injEq] at hname
      obtain ⟨hb, hrest⟩ := hname
      have htry : tryP1 (b :: rest) = none := by
        cases htry : tryP1 (b :: rest) with
        | none => rfl
        | some v =>
          obtain ⟨⟨ds', es'⟩, r'⟩ := v
          obtain ⟨c1', c2', post', hdec'⟩ := tryP1_sound _ _ _ _ htry
          have := hmin [] ds' es' post' c1' c2' hdec'
          simp at this
      have hdec2 : SEDecomp rest pre' ds es post c1 c2 :=
        ⟨hrest, hdec.2.1, hdec.2.2.1, hdec.2.2.2.1, hdec.2.2.2.2.1,
          hdec.2.2.2.2.2.1, hdec.2.2.2.2.2.2.1, hdec.2.2.2.2.2.2.2⟩
      have hmin2 : ∀ pre'' ds' es' post' c1' c2',
          SEDecomp rest pre'' ds' es' post' c1' c2' → pre'.length ≤ pre''.length := by
        intro pre'' ds' es' post' c1' c2' hd
        have : SEDecomp (b :: rest) (b :: pre'') ds' es' post' c1' c2' :=
          ⟨by rw [hd.1]; simp, hd.2.1, hd.2.2.1, hd.2.2.2.1, hd.2.2.2.2.1,
            hd.2.2.2.2.2.1, hd.2.2.2.2.2.2.1, hd.2.2.2.2.2.2.2⟩
        have := hmin (b :: pre'') ds' es' post' c1' c2' this
        simpa using this
      have ih := searchP1_of_leftmost pre' rest ds es post c1 c2 hdec2 hmin2
      unfold searchP1
      rw [htry, ih]

/-- C1: if the extension-stripped name contains an `S<digits>E<digits>`
token (any letter case) and no such token starts earlier, then
`_extract_episode_season` returns exactly the two integers captured by that
token, ignoring all other digit runs in the name. -/
theorem c1_se_token_detected (name pre ds es post : List Char) (c1 c2 : Char)
    (hdec : SEDecomp name pre ds es post c1 c2)
    (hmin : ∀ pre' ds' es' post' c1' c2', SEDecomp name pre' ds' es' post' c1' c2' →
      pre.length ≤ pre'.length) :
    extract_episode_season name = (some (digitsToNat ds), some (digitsToNat es)) := by
  have h := searchP1_of_leftmost pre name ds es post c1 c2 hdec hmin
  unfold extract_episode_season
  rw [h]

/-- Witness for C1: the name `aS01E02.720p` contains the token `S01E02` at
position 1 (and no SE token earlier, since a token cannot start at the
head character `a`), and detection returns `(1, 2)` ignoring the other
digit run `720`. -/
theorem c1_se_token_detected_witness :
    SEDecomp ("aS01E02.720p".data) ['a'] ['0', '1'] ['0', '2'] (".720p".data) 'S' 'E' ∧
    extract_episode_season ("aS01E02.720p".data) =
      (some (digitsToNat ['0', '1']), some (digitsToNat ['0', '2'])) := by
  have hdec : SEDecomp ("aS01E02.720p".data) ['a'] ['0', '1'] ['0', '2']
      (".720p".data) 'S' 'E' := by
    unfold SEDecomp headNotDigitB
    decide
  refine ⟨hdec, c1_se_token_detected _ ['a'] _ _ _ 'S' 'E' hdec ?_⟩
  intro pre' ds' es' post' c1' c2' hd
  cases pre' with
  | cons x xs => simp
  | nil =>
    exfalso
    have h1 := hd.1
    have hh : List.head? ("aS01E02.720p".data) = some c1' := by rw [h1]; simp
    rcases hd.2.1 with h | h <;> rw [h] at hh <;> exact absurd hh (by decide)

/-! ## C5: episode zero-padding and the `or 1` default -/

/-- C5 counterexample: an `EpisodeInfo` with episode present and equal to 0
renders `{Episode}` as `01`, not `00`: Python `episode_info.episode or 1`
treats the present value 0 as falsy and falls back to the default 1. -/
theorem c5_counterexample :
    generate_new_filename [] { season := some 1, episode := some 0 }
        ("{Episode}".data) = "01.mkv".data ∧
      "01.mkv".data ≠ "00.mkv".data := by
  decide

/-- A fuel-supplied decimal rendering is never empty. -/
theorem natToDigitsF_length_pos (fuel n : Nat) (h : 1 ≤ fuel) :
    1 ≤ (natToDigitsF fuel n).length := by
  cases fuel with
  | zero => omega
  | succ f =>
    unfold natToDigitsF
    by_cases h10 : n < 10
    · simp [h10]
    · simp [h10]

/-- Numbers of at least two decimal digits render with at least two
characters. -/
theorem natToDigits_length_two (e : Nat) (h10 : 10 ≤ e) :
    2 ≤ (natToDigits e).length := by
  unfold natToDigits natToDigitsF
  rw [if_neg (by omega)]
  have := natToDigitsF_length_pos e (e / 10) (by omega)
  simp only [List.length_append, List.length_cons, List.length_nil]
  omega

/-- C5 amended: for every present episode value of at least 1, the
`{Episode}` placeholder value is the zero-padded 2-digit rendering
(one-digit values get a leading zero, values of 10 or more render with all
their digits untruncated); the default 1 is used when the episode is absent
or when it is 0. -/
theorem c5_amended_episode_padding (e : Nat) (he : 1 ≤ e) :
    episodeField (some e) = zfill2 (natToDigits e) ∧
    (e ≤ 9 → episodeField (some e) = '0' :: natToDigits e) ∧
    (10 ≤ e → episodeField (some e) = natToDigits e) ∧
    episodeField none = ['0', '1'] ∧ episodeField (some 0) = ['0', '1'] := by
  have h0 : pyOrNat (some e) 1 = e := by
    cases e with
    | zero => omega
    | succ n => rfl
  refine ⟨by simp [episodeField, h0], ?_, ?_, by decide, by decide⟩
  · intro h9
    have hone : natToDigits e = [Nat.digitChar e] := by
      unfold natToDigits natToDigitsF
      rw [if_pos (by omega)]
    simp [episodeField, h0, zfill2, hone]
  · intro h10
    have hlen := natToDigits_length_two e h10
    simp only [episodeField, h0, zfill2]
    rw [if_neg (by omega)]

/-- Witness for C5 amended at episode 7. -/
theorem c5_amended_episode_padding_witness :
    (1 ≤ 7) ∧
    (episodeField (some 7) = zfill2 (natToDigits 7) ∧
      (7 ≤ 9 → episodeField (some 7) = '0' :: natToDigits 7) ∧
      (10 ≤ 7 → episodeField (some 7) = natToDigits 7) ∧
      episodeField none = ['0', '1'] ∧ episodeField (some 0) = ['0', '1']) :=
  ⟨by decide, c5_amended_episode_padding 7 (by decide)⟩

/-! ## C7: the `.{Extension}` template suffix -/

/-- C7: a template ending in the literal `.{Extension}` has exactly that
12-character suffix removed before placeholder substitution, and the
extension value is appended after substitution; in particular the template
`[S{Season} - E{Episode}] {ShowName}.{Extension}` with season 1, episode 7,
show `Demo` and extension `.mkv` produces `[S01 - E07] Demo.mkv`. -/
theorem c7_extension_suffix :
    (∀ (ch : List Char) (info : EpisodeInfo) (t : List Char),
      generate_new_filename ch info (t ++ extSuffix) =
        safe_filename ((replacementsList ch info).foldl
          (fun s kv => replaceAll (placeholder kv.1) kv.2 s) t ++
          pyOrStr info.extension (".mkv".data))) ∧
    generate_new_filename []
        { season := some 1, episode := some 7, show_name := "Demo".data,
          extension := ".mkv".data }
        ("[S{Season} - E{Episode}] {ShowName}.{Extension}".data) =
      "[S01 - E07] Demo.mkv".data := by
  constructor
  · intro ch info t
    unfold generate_new_filename
    have hsfx : extSuffix.isSuffixOf (t ++ extSuffix) = true := by
      rw [List.isSuffixOf_iff_suffix]
      exact List.suffix_append t extSuffix
    have hlen : (t ++ extSuffix).length - 12 = t.length := by
      have : extSuffix.length = 12 := by decide
      simp [List.length_append, this]
    simp only [hsfx, if_true, hlen]
    rw [List.take_left]
  · decide

/-! ## Sanitization: C9 and C2 -/

/-- The first element surviving a `dropWhile` fails the predicate. -/
theorem head_not_of_dropWhile (p : Char → Bool) (l : List Char) (c : Char)
    (cs : List Char) (h : l.dropWhile p = c :: cs) : p c = false := by
  induction l with
  | nil => simp at h
  | cons x xs ih =>
    rw [List.dropWhile_cons] at h
    by_cases hx : p x
    · rw [if_pos hx] at h
      exact ih h
    · rw [if_neg hx] at h
      cases h
      simpa using hx

/-- Membership after the per-character replacement fold of
`safe_filename`: every element is an underscore or an original element not
in the replaced set. -/
theorem mem_foldl_replace (L : List Char) :
    ∀ (s : List Char) (c : Char),
      c ∈ L.foldl (fun acc a => acc.map (fun x => if x = a then '_' else x)) s →
      c = '_' ∨ (c ∈ s ∧ c ∉ L) := by
  induction L with
  | nil =>
    intro s c h
    simp only [List.foldl_nil] at h
    exact Or.inr ⟨h, by simp⟩
  | cons a L ih =>
    intro s c h
    simp only [List.foldl_cons] at h
    rcases ih _ c h with h1 | ⟨h2, h3⟩
    · exact Or.inl h1
    · simp only [List.mem_map] at h2
      obtain ⟨x, hx, hxc⟩ := h2
      by_cases hxa : x = a
      · rw [if_pos hxa] at hxc
        exact Or.inl hxc.symm
      · rw [if_neg hxa] at hxc
        subst hxc
        exact Or.inr ⟨hx, by simp [List.mem_cons, hxa, h3]⟩

/-- Every original element survives the replacement fold, either unchanged
or as an underscore. -/
theorem exists_mem_foldl_replace (L : List Char) :
    ∀ (s : List Char) (c : Char), c ∈ s →
      ∃ y ∈ L.foldl (fun acc a => acc.map (fun x => if x = a then '_' else x)) s,
        y = c ∨ y = '_' := by
  induction L with
  | nil => exact fun s c h => ⟨c, by simpa using h, Or.inl rfl⟩
  | cons a L ih =>
    intro s c h
    simp only [List.foldl_cons]
    have hmem : (if c = a then '_' else c) ∈
        s.map (fun x => if x = a then '_' else x) := List.mem_map_of_mem _ h
    obtain ⟨y, hy, hyc⟩ := ih _ _ hmem
    refine ⟨y, hy, ?_⟩
    by_cases hca : c = a
    · rw [if_pos hca] at hyc
      rcases hyc with h1 | h1 <;> exact Or.inr h1
    · rwa [if_neg hca] at hyc

/-- The replacement fold is the identity on inputs containing none of the
replaced characters. -/
theorem foldl_replace_id (L : List Char) :
    ∀ (s : List Char), (∀ c ∈ s, c ∉ L) →
      L.foldl (fun acc a => acc.map (fun x => if x = a then '_' else x)) s = s := by
  induction L with
  | nil => intro s _; rfl
  | cons a L ih =>
    intro s h
    simp only [List.foldl_cons]
    have hmap : s.map (fun x => if x = a then '_' else x) = s := by
      have : ∀ c ∈ s, (if c = a then '_' else c) = c := by
        intro c hc
        rw [if_neg]
        intro he
        exact (h c hc) (he ▸ List.mem_cons_self a L)
      calc s.map (fun x => if x = a then '_' else x) = s.map id :=
            List.map_congr_left this
        _ = s := List.map_id s
    rw [hmap]
    apply ih
    intro c hc
    have := h c hc
    simp only [List.mem_cons, not_or] at this
    exact this.2

/-- Elements failing the predicate survive `dropWhile`. -/
theorem mem_dropWhile_of_not (p : Char → Bool) (l : List Char) (c : Char)
    (hw : p c = false) (h : c ∈ l) : c ∈ l.dropWhile p := by
  induction l with
  | nil => simp at h
  | cons x xs ih =>
    rw [List.dropWhile_cons]
    by_cases hx : p x
    · rw [if_pos hx]
      rcases List.mem_cons.mp h with h1 | h1
      · subst h1; rw [hw] at hx; simp at hx
      · exact ih h1
    · rw [if_neg hx]
      exact h

/-- `pyStrip` only removes elements. -/
theorem mem_of_mem_pyStrip (l : List Char) (c : Char) (h : c ∈ pyStrip l) : c ∈ l := by
  unfold pyStrip at h
  rw [List.mem_reverse] at h
  have h1 := (List.dropWhile_sublist pyWsB
    (l := (l.dropWhile pyWsB).reverse)).subset h
  rw [List.mem_reverse] at h1
  exact (List.dropWhile_sublist pyWsB (l := l)).subset h1

/-- A list containing a non-whitespace character does not strip to the
empty list. -/
theorem pyStrip_ne_nil (l : List Char) (c : Char) (hc : c ∈ l)
    (hw : pyWsB c = false) : pyStrip l ≠ [] := by
  have h1 := mem_dropWhile_of_not pyWsB l c hw hc
  have h2 : c ∈ (l.dropWhile pyWsB).reverse := by simpa using h1
  have h3 := mem_dropWhile_of_not pyWsB _ c hw h2
  unfold pyStrip
  intro h
  rw [List.reverse_eq_nil_iff] at h
  rw [h] at h3
  exact absurd h3 (List.not_mem_nil c)

/-- The output of `safe_filename` never contains an invalid character. -/
theorem safe_filename_no_invalid (s : List Char) :
    ∀ c ∈ safe_filename s, c ∉ invalidChars := by
  intro c hc
  have h1 := mem_of_mem_pyStrip _ c hc
  rcases mem_foldl_replace invalidChars s c h1 with h | ⟨-, h⟩
  · subst h; decide
  · exact h

/-- The output of `safe_filename` is nonempty whenever the input contains a
non-whitespace character. -/
theorem safe_filename_ne_nil (s : List Char)
    (h : ∃ c ∈ s, pyWsB c = false) : safe_filename s ≠ [] := by
  obtain ⟨c, hc, hw⟩ := h
  obtain ⟨y, hy, hyc⟩ := exists_mem_foldl_replace invalidChars s c hc
  have hyw : pyWsB y = false := by
    rcases hyc with h1 | h1 <;> subst h1
    · exact hw
    · decide
  exact pyStrip_ne_nil _ y hy hyw

/-- `pyStrip` in terms of Mathlib's `rdropWhile`. -/
theorem pyStrip_eq_rdrop (l : List Char) :
    pyStrip l = List.rdropWhile pyWsB (l.dropWhile pyWsB) := rfl

/-- Stripping is idempotent. -/
theorem pyStrip_idempotent (l : List Char) : pyStrip (pyStrip l) = pyStrip l := by
  rw [pyStrip_eq_rdrop, pyStrip_eq_rdrop]
  have h1 : List.dropWhile pyWsB (List.rdropWhile pyWsB (l.dropWhile pyWsB)) =
      List.rdropWhile pyWsB (l.dropWhile pyWsB) := by
    cases hr : List.rdropWhile pyWsB (l.dropWhile pyWsB) with
    | nil => simp
    | cons c cs =>
      obtain ⟨t, ht⟩ := List.rdropWhile_prefix pyWsB (l := l.dropWhile pyWsB)
      rw [hr, List.cons_append] at ht
      have hc : pyWsB c = false :=
        head_not_of_dropWhile pyWsB l c (cs ++ t) ht.symm
      simp [List.dropWhile_cons, hc]
  rw [h1, List.rdropWhile_idempotent]

/-- C9: sanitization is idempotent; `safe_filename` applied to its own
output returns it unchanged, since the replacement pass finds no invalid
characters left and the strip finds no boundary whitespace left. -/
theorem c9_sanitize_idempotent (s : List Char) :
    safe_filename (safe_filename s) = safe_filename s := by
  have hni := safe_filename_no_invalid s
  show pyStrip (replaceInvalid (safe_filename s)) = safe_filename s
  have hid : replaceInvalid (safe_filename s) = safe_filename s :=
    foldl_replace_id invalidChars (safe_filename s) hni
  rw [hid]
  show pyStrip (pyStrip (replaceInvalid s)) = pyStrip (replaceInvalid s)
  exact pyStrip_idempotent _

/-- C2 counterexample: an `EpisodeInfo` whose extension field is a single
space (a truthy Python string) together with an empty resolved template
makes `generate_new_filename` return the empty string: the final
`str.strip()` erases the whole result. -/
theorem c2_counterexample :
    generate_new_filename ['c'] { extension := [' '] } [] = [] := by
  decide

/-- C2 amended: `generate_new_filename` always returns a string containing
none of the characters `< > : " / \ | ? *`; the result is moreover
non-empty whenever the extension field is empty (the default `.mkv` is
appended) or contains at least one non-whitespace character.  (With an
all-whitespace extension and an all-whitespace substituted template body
the final strip can erase everything.) -/
theorem c2_amended_total_sanitized (ch : List Char) (info : EpisodeInfo)
    (t : List Char) :
    (∀ c ∈ generate_new_filename ch info t, c ∉ invalidChars) ∧
    ((info.extension = [] ∨ ∃ c ∈ info.extension, pyWsB c = false) →
      generate_new_filename ch info t ≠ []) := by
  constructor
  · intro c hc
    simp only [generate_new_filename] at hc
    exact safe_filename_no_invalid _ c hc
  · intro hext
    simp only [generate_new_filename]
    apply safe_filename_ne_nil
    rcases hext with hnil | ⟨c, hc, hw⟩
    · refine ⟨'m', List.mem_append_right _ ?_, by decide⟩
      rw [hnil]
      decide
    · refine ⟨c, List.mem_append_right _ ?_, hw⟩
      have hne : info.extension ≠ [] := by
        intro h
        rw [h] at hc
        exact absurd hc (List.not_mem_nil c)
      simpa [pyOrStr, hne] using hc

/-- Witness for C2 amended: the default `EpisodeInfo` (empty extension)
with an empty template still produces a non-empty sanitized name. -/
theorem c2_amended_total_sanitized_witness :
    (({ } : EpisodeInfo).extension = [] ∨
      ∃ c ∈ ({ } : EpisodeInfo).extension, pyWsB c = false) ∧
    generate_new_filename [] { } [] ≠ [] :=
  ⟨Or.inl rfl, (c2_amended_total_sanitized [] { } []).2 (Or.inl rfl)⟩

/-! ## C6: the show-name fallback -/

set_option maxHeartbeats 2000000 in
/-- C6 counterexample: for the extension-stripped name `S01E02.x264` the
stripping pipeline leaves the empty string, but the fallback does not
return the name verbatim (title-cased): `_extract_show_name` applies
`get_file_name_without_extension` to its argument once more, stripping a
second extension and returning `S01E02` instead of `S01E02.X264`.
Moreover the empty input filename yields an empty `show_name`. -/
theorem c6_counterexample :
    extract_show_name ("S01E02.x264".data) = "S01E02".data ∧
    "S01E02".data ≠ pyTitle ("S01E02.x264".data) ∧
    (detect_episode_info []).show_name = [] := by
  decide

/-- Title-casing preserves nonemptiness. -/
theorem pyTitle_ne_nil (l : List Char) (h : l ≠ []) : pyTitle l ≠ [] := by
  cases l with
  | nil => exact absurd rfl h
  | cons c cs =>
    unfold pyTitle pyTitleAux
    by_cases hc : c.isAlpha <;> simp [hc]

/-- The root returned by the splitting branch of `splitext` is nonempty for
nonempty input. -/
theorem splitextCore_root_ne_nil (l : List Char) (d st : Nat) (hl : l ≠ []) :
    (splitextCore l d st).1 ≠ [] := by
  unfold splitextCore
  split
  · rename_i hany
    simp only []
    have h1 : ((l.drop st).take (d - st)) ≠ [] := by
      rw [List.any_eq_true] at hany
      obtain ⟨x, hx, -⟩ := hany
      exact List.ne_nil_of_mem hx
    rw [Ne, List.take_eq_nil_iff] at h1
    push_neg at h1
    rw [Ne, List.take_eq_nil_iff]
    push_neg
    refine ⟨?_, hl⟩
    omega
  · exact hl

/-- The root of `splitext` is nonempty for nonempty input. -/
theorem splitext_root_ne_nil (l : List Char) (hl : l ≠ []) : (splitext l).1 ≠ [] := by
  unfold splitext
  split
  · exact hl
  · exact splitextCore_root_ne_nil l _ 0 hl
  · split
    · exact splitextCore_root_ne_nil l _ _ hl
    · exact hl

/-- C6 amended: when the stripping pipeline leaves fewer than 2 characters,
`_extract_show_name` returns `get_file_name_without_extension` of its
argument (the extension-stripped filename with a possible second extension
stripped off, not the argument verbatim), title-cased; the show name is
nonempty for every nonempty input, and the `show_name` field of
`detect_episode_info` is nonempty for every nonempty filename (the empty
filename yields an empty show name). -/
theorem c6_amended_show_name (name : List Char) :
    ((showNamePipeline name).length < 2 →
      extract_show_name name = pyTitle (get_file_name_without_ext name)) ∧
    (name ≠ [] → extract_show_name name ≠ []) ∧
    (name ≠ [] → (detect_episode_info name).show_name ≠ []) := by
  have hext : ∀ m : List Char, m ≠ [] → extract_show_name m ≠ [] := by
    intro m hm
    show (if (showNamePipeline m).length < 2 then
        pyTitle (get_file_name_without_ext m)
      else pyTitle (showNamePipeline m)) ≠ []
    split
    · exact pyTitle_ne_nil _ (splitext_root_ne_nil m hm)
    · rename_i hlen
      apply pyTitle_ne_nil
      intro h
      rw [h] at hlen
      simp at hlen
  refine ⟨?_, hext name, ?_⟩
  · intro h
    show (if (showNamePipeline name).length < 2 then
        pyTitle (get_file_name_without_ext name)
      else pyTitle (showNamePipeline name)) = pyTitle (get_file_name_without_ext name)
    rw [if_pos h]
  · intro hf
    simp only [detect_episode_info]
    exact hext _ (splitext_root_ne_nil name hf)

/-- Witness for C6 amended at the concrete name `S01E02.x264`. -/
theorem c6_amended_show_name_witness :
    ((showNamePipeline ("S01E02.x264".data)).length < 2 ∧ "S01E02.x264".data ≠ []) ∧
    extract_show_name ("S01E02.x264".data) =
      pyTitle (get_file_name_without_ext ("S01E02.x264".data)) ∧
    extract_show_name ("S01E02.x264".data) ≠ [] ∧
    (detect_episode_info ("S01E02.x264".data)).show_name ≠ [] :=
  ⟨⟨by decide, by decide⟩,
    (c6_amended_show_name _).1 (by decide),
    (c6_amended_show_name _).2.1 (by decide),
    (c6_amended_show_name _).2.2 (by decide)⟩

/-! ## C8: unmatched placeholders survive substitution

A `{Name}` token is a brace-delimited literal with no interior braces.  Two
such tokens cannot overlap inside a string, and the placeholder scanner of
`str.replace` can therefore never destroy a token whose name differs from
the replaced key. -/

/-- Two brace-terminated names where one is a prefix of the other are
equal, provided the longer name contains no closing brace. -/
theorem brace_token_prefix_eq (N K : List Char) (hK : '}' ∉ K)
    (h : N ++ ['}'] <+: K ++ ['}']) : N = K := by
  obtain ⟨r, hr⟩ := h
  cases r with
  | nil =>
    rw [List.append_nil] at hr
    exact List.append_cancel_right hr
  | cons x xs =>
    exfalso
    have hlen := congrArg List.length hr
    simp only [List.length_append, List.length_cons, List.length_nil] at hlen
    have hle : N.length + 1 ≤ K.length := by omega
    have htake := congrArg (List.take K.length) hr
    have h2 : List.take K.length (K ++ ['}']) = K := List.take_left' rfl
    rw [h2, List.take_append_eq_append_take,
      List.take_of_length_le (by simp; omega)] at htake
    apply hK
    rw [← htake]
    exact List.mem_append_left _ (List.mem_append_right _ (by simp))

/-- Two placeholders where one is a prefix of the other have equal names
(given that neither name contains a closing brace). -/
theorem placeholder_prefix_eq (N K : List Char) (hN : '}' ∉ N) (hK : '}' ∉ K)
    (h : placeholder N <+: placeholder K ∨ placeholder K <+: placeholder N) :
    N = K := by
  rcases h with h | h
  · exact brace_token_prefix_eq N K hK (List.cons_prefix_cons.mp h).2
  · exact (brace_token_prefix_eq K N hN (List.cons_prefix_cons.mp h).2).symm

/-- A prefix containing no opening brace is emitted verbatim by the
placeholder replacement scanner. -/
theorem replaceAllF_keeps_prefix (K v : List Char) :
    ∀ (u : List Char) (fuel : Nat) (s : List Char), s.length ≤ fuel →
      (∀ c ∈ u, c ≠ '{') → u <+: s →
      u <+: replaceAllF fuel (placeholder K) v s := by
  intro u
  induction u with
  | nil => intro fuel s _ _ _; exact List.nil_prefix
  | cons x u2 ih =>
    intro fuel s hfuel hnb hpre
    obtain ⟨r, hr⟩ := hpre
    subst hr
    cases fuel with
    | zero => simp at hfuel
    | succ f =>
      rw [List.cons_append]
      simp only [replaceAllF]
      have hx : x ≠ '{' := hnb x (List.mem_cons_self x u2)
      have hnp : (placeholder K).isPrefixOf (x :: (u2 ++ r)) = false := by
        rw [Bool.eq_false_iff, Ne, List.isPrefixOf_iff_prefix]
        intro htrue
        exact hx ((List.cons_prefix_cons.mp htrue).1).symm
      rw [if_neg (by simp [hnp])]
      refine List.cons_prefix_cons.mpr ⟨rfl, ?_⟩
      refine ih f (u2 ++ r) ?_ (fun c hc => hnb c (List.mem_cons_of_mem _ hc))
        (List.prefix_append u2 r)
      simp only [List.length_cons, List.length_append] at hfuel ⊢
      omega

/-- A placeholder token inside a string with a different placeholder as a
prefix lies entirely after that prefix. -/
theorem token_infix_drop (N K : List Char) (hN2 : '}' ∉ N)
    (hK1 : '{' ∉ K) (hK2 : '}' ∉ K) (hNK : N ≠ K) (s : List Char)
    (hp : placeholder K <+: s) (ht : placeholder N <:+: s) :
    placeholder N <:+: s.drop (placeholder K).length := by
  obtain ⟨a, b, hab⟩ := ht
  by_cases hcmp : (placeholder K).length ≤ a.length
  · have h2 : s.drop (placeholder K).length =
        a.drop (placeholder K).length ++ (placeholder N ++ b) := by
      rw [← hab, List.append_assoc, List.drop_append_eq_append_drop,
        Nat.sub_eq_zero_of_le hcmp, List.drop_zero]
    exact ⟨a.drop (placeholder K).length, b, by rw [List.append_assoc, ← h2]⟩
  · exfalso
    push_neg at hcmp
    cases a with
    | nil =>
      have htp : placeholder N <+: s := ⟨b, by simpa using hab⟩
      exact hNK (placeholder_prefix_eq N K hN2 hK2
        (List.prefix_or_prefix_of_prefix htp hp))
    | cons a0 a2 =>
      obtain ⟨r, hr⟩ := hp
      have hdrop : (placeholder K).drop (a0 :: a2).length ++ r =
          placeholder N ++ b := by
        have h1 := congrArg (List.drop (a0 :: a2).length) hr
        rw [List.drop_append_eq_append_drop,
          Nat.sub_eq_zero_of_le (Nat.le_of_lt hcmp), List.drop_zero] at h1
        rw [← hab, List.append_assoc, List.drop_left] at h1
        exact h1
      have hsub : (placeholder K).drop (a0 :: a2).length =
          (K ++ ['}']).drop a2.length := by
        simp [placeholder]
      cases hq : (K ++ ['}']).drop a2.length with
      | nil =>
        rw [List.drop_eq_nil_iff] at hq
        simp only [List.length_append, List.length_cons, List.length_nil] at hq
        simp only [placeholder, List.length_cons, List.length_append,
          List.length_nil] at hcmp
        omega
      | cons y ys =>
        have hy : y ∈ K ++ ['}'] :=
          List.drop_subset _ _ (hq ▸ List.mem_cons_self y ys)
        have hy2 : y = '{' := by
          rw [hsub, hq] at hdrop
          have := congrArg List.head? hdrop
          simpa [placeholder] using this
        rw [hy2] at hy
        rcases List.mem_append.mp hy with h | h
        · exact hK1 h
        · simp at h

/-- Replacing one placeholder key preserves every placeholder token with a
different name, as an infix. -/
theorem replaceAllF_keeps_token (N K v : List Char) (hN1 : '{' ∉ N)
    (hN2 : '}' ∉ N) (hK1 : '{' ∉ K) (hK2 : '}' ∉ K) (hNK : N ≠ K) :
    ∀ (fuel : Nat) (s : List Char), s.length ≤ fuel →
      placeholder N <:+: s →
      placeholder N <:+: replaceAllF fuel (placeholder K) v s := by
  intro fuel
  induction fuel with
  | zero =>
    intro s hf ht
    simpa [replaceAllF] using ht
  | succ f ih =>
    intro s hf ht
    cases s with
    | nil => simpa [replaceAllF] using ht
    | cons c rest =>
      simp only [replaceAllF]
      by_cases hp : (placeholder K).isPrefixOf (c :: rest) = true
      · rw [if_pos (by simp [hp])]
        rw [List.isPrefixOf_iff_prefix] at hp
        have hdrop := token_infix_drop N K hN2 hK1 hK2 hNK (c :: rest) hp ht
        have heq : (c :: rest).drop (placeholder K).length =
            rest.drop ((placeholder K).length - 1) := by
          simp [placeholder]
        rw [heq] at hdrop
        have hih := ih (rest.drop ((placeholder K).length - 1))
          (by
            have h1 := List.length_drop ((placeholder K).length - 1) rest
            simp only [List.length_cons] at hf
            omega)
          hdrop
        obtain ⟨x, y, hxy⟩ := hih
        exact ⟨v ++ x, y, by rw [← hxy]; simp⟩
      · rw [if_neg (by simp [hp])]
        rcases List.infix_cons_iff.mp ht with hpre | hinf
        · obtain ⟨hc, htail⟩ := List.cons_prefix_cons.mp hpre
          subst hc
          have hfr : rest.length ≤ f := by
            simp only [List.length_cons] at hf
            omega
          have hker : ∀ d ∈ N ++ ['}'], d ≠ '{' := by
            intro d hd
            rcases List.mem_append.mp hd with h | h
            · intro he
              exact hN1 (he ▸ h)
            · simp only [List.mem_singleton] at h
              subst h
              decide
          have hkeep := replaceAllF_keeps_prefix K v (N ++ ['}']) f rest hfr hker htail
          exact (List.cons_prefix_cons.mpr ⟨rfl, hkeep⟩).isInfix
        · have hfr : rest.length ≤ f := by
            simp only [List.length_cons] at hf
            omega
          exact List.infix_cons (ih rest hfr hinf)

/-- Splitting a prefix of an append. -/
theorem prefix_append_cases (l X Y : List Char) (h : l <+: X ++ Y) :
    l <+: X ∨ ∃ l2, l = X ++ l2 ∧ l2 <+: Y := by
  by_cases hle : l.length ≤ X.length
  · left
    have h1 := List.prefix_iff_eq_take.mp h
    rw [List.take_append_eq_append_take,
      Nat.sub_eq_zero_of_le hle, List.take_zero, List.append_nil] at h1
    rw [h1]
    exact List.take_prefix _ _
  · right
    push_neg at hle
    have hX : X <+: l :=
      List.prefix_of_prefix_length_le (List.prefix_append X Y) h (Nat.le_of_lt hle)
    obtain ⟨l2, hl2⟩ := hX
    refine ⟨l2, hl2.symm, ?_⟩
    obtain ⟨r, hr⟩ := h
    rw [← hl2, List.append_assoc] at hr
    exact ⟨r, List.append_cancel_left hr⟩

/-- Trichotomy for an infix of an append: inside the left part, inside the
right part, or spanning the boundary. -/
theorem infix_append_cases (l X Y : List Char) (h : l <:+: X ++ Y) :
    l <:+: X ∨ l <:+: Y ∨
      ∃ l1 l2, l = l1 ++ l2 ∧ l1 ≠ [] ∧ l2 ≠ [] ∧ l1 <:+ X ∧ l2 <+: Y := by
  induction X generalizing l with
  | nil =>
    rw [List.nil_append] at h
    exact Or.inr (Or.inl h)
  | cons x X ih =>
    rw [List.cons_append] at h
    rcases List.infix_cons_iff.mp h with hpre | hinf
    · rcases prefix_append_cases l (x :: X) Y (by simpa using hpre) with
        h1 | ⟨l2, hl, hl2⟩
      · exact Or.inl h1.isInfix
      · by_cases h2 : l2 = []
        · subst h2
          rw [List.append_nil] at hl
          subst hl
          exact Or.inl (List.infix_refl _)
        · exact Or.inr (Or.inr ⟨x :: X, l2, hl, by simp, h2, List.suffix_refl _, hl2⟩)
    · rcases ih l hinf with h1 | h1 | ⟨l1, l2, h2, h3, h4, h5, h6⟩
      · exact Or.inl (List.infix_cons h1)
      · exact Or.inr (Or.inl h1)
      · exact Or.inr (Or.inr ⟨l1, l2, h2, h3, h4, h5.trans (List.suffix_cons x X), h6⟩)

/-- The characters of `extSuffix` split as a dot followed by the
`Extension` placeholder. -/
theorem extSuffix_eq : extSuffix = '.' :: placeholder ("Extension".data) := by decide

/-- A placeholder token that is an infix of `template ++ ".{Extension}"`
and is not the `Extension` placeholder is an infix of `template`: a token
has no interior braces, so it can neither live inside the suffix nor span
the boundary. -/
theorem token_infix_of_infix_suffix (N X : List Char) (hN1 : '{' ∉ N)
    (hExt : N ≠ "Extension".data)
    (h : placeholder N <:+: X ++ extSuffix) : placeholder N <:+: X := by
  rcases infix_append_cases _ X extSuffix h with h1 | h1 | ⟨l1, l2, h2, h3, h4, h5, h6⟩
  · exact h1
  · exfalso
    obtain ⟨a, b, hab⟩ := h1
    rw [extSuffix_eq] at hab
    cases a with
    | nil =>
      have := congrArg List.head? hab
      simp [placeholder] at this
    | cons a0 a2 =>
      rw [List.cons_append, List.cons_append] at hab
      have hrest : a2 ++ placeholder N ++ b = placeholder ("Extension".data) :=
        (List.cons.injEq .. ▸ hab).2
      cases a2 with
      | nil =>
        have hpre : placeholder N <+: placeholder ("Extension".data) :=
          ⟨b, by simpa using hrest⟩
        exact hExt (brace_token_prefix_eq N ("Extension".data) (by decide)
          (List.cons_prefix_cons.mp hpre).2)
      | cons a1 a3 =>
        rw [List.cons_append, List.cons_append] at hrest
        have h2 : a3 ++ placeholder N ++ b = "Extension".data ++ ['}'] :=
          (List.cons.injEq .. ▸ hrest).2
        have hmem : '{' ∈ "Extension".data ++ ['}'] := by
          rw [← h2]
          exact List.mem_append_left _
            (List.mem_append_right _ (by simp [placeholder]))
        simp at hmem
  · exfalso
    cases l2 with
    | nil => exact h4 rfl
    | cons c l3 =>
      rw [extSuffix_eq] at h6
      obtain ⟨hc, hl3⟩ := List.cons_prefix_cons.mp h6
      subst hc
      cases l3 with
      | nil =>
        have h7 := congrArg List.getLast? h2
        have h8 : (placeholder N).getLast? = some '}' := by
          show (('{' :: N) ++ ['}']).getLast? = some '}'
          exact List.getLast?_concat _
        rw [h8, List.getLast?_concat] at h7
        simp at h7
      | cons c2 l4 =>
        have hc2 : c2 = '{' := (List.cons_prefix_cons.mp hl3).1
        subst hc2
        cases l1 with
        | nil => exact h3 rfl
        | cons c0 l5 =>
          rw [List.cons_append] at h2
          have h9 : N ++ ['}'] = l5 ++ '.' :: '{' :: l4 :=
            (List.cons.injEq .. ▸ h2).2
          have hmem : '{' ∈ N ++ ['}'] := by
            rw [h9]
            exact List.mem_append_right _ (by simp)
          rcases List.mem_append.mp hmem with h | h
          · exact hN1 h
          · simp at h

/-- The character replacement fold preserves, as an infix, any list none of
whose characters is replaced. -/
theorem foldl_replace_keeps (L : List Char) :
    ∀ (s t : List Char), (∀ c ∈ t, c ∉ L) → t <:+: s →
      t <:+: L.foldl (fun acc a => acc.map (fun x => if x = a then '_' else x)) s := by
  induction L with
  | nil => intro s t _ h; simpa using h
  | cons a L ih =>
    intro s t hch h
    simp only [List.foldl_cons]
    apply ih
    · intro c hc
      have := hch c hc
      simp only [List.mem_cons, not_or] at this
      exact this.2
    · obtain ⟨x, y, hxy⟩ := h
      have hmap : t.map (fun c => if c = a then '_' else c) = t := by
        calc t.map (fun c => if c = a then '_' else c) = t.map id := by
              apply List.map_congr_left
              intro c hc
              have := hch c hc
              simp only [List.mem_cons, not_or] at this
              simp [this.1]
          _ = t := List.map_id t
      refine ⟨x.map (fun c => if c = a then '_' else c),
        y.map (fun c => if c = a then '_' else c), ?_⟩
      rw [← hxy]
      simp only [List.map_append, hmap]

/-- Dropping a whitespace prefix preserves an infix whose head is not
whitespace. -/
theorem dropWhile_keeps_infix (p : Char → Bool) (c0 : Char) (t1 : List Char)
    (hw : p c0 = false) :
    ∀ (a b s : List Char), a ++ (c0 :: t1) ++ b = s →
      c0 :: t1 <:+: s.dropWhile p := by
  intro a
  induction a with
  | nil =>
    intro b s hs
    rw [List.nil_append] at hs
    subst hs
    rw [List.cons_append, List.dropWhile_cons, if_neg (by simp [hw])]
    exact ⟨[], b, by simp⟩
  | cons x a2 ih =>
    intro b s hs
    subst hs
    rw [List.cons_append, List.cons_append, List.dropWhile_cons]
    by_cases hx : p x
    · rw [if_pos hx]
      exact ih b _ (by simp)
    · rw [if_neg hx]
      exact ⟨x :: a2, b, by simp⟩

/-- Stripping preserves a placeholder token as an infix: its first
character is an opening brace and its last a closing brace, neither of
which is whitespace. -/
theorem pyStrip_keeps_token (N s : List Char) (h : placeholder N <:+: s) :
    placeholder N <:+: pyStrip s := by
  obtain ⟨a, b, hab⟩ := h
  have h1 : placeholder N <:+: s.dropWhile pyWsB :=
    dropWhile_keeps_infix pyWsB '{' (N ++ ['}']) (by decide) a b s hab
  obtain ⟨a2, b2, hab2⟩ := h1
  have hrevtok : (placeholder N).reverse = '}' :: ('{' :: N).reverse := by
    show (('{' :: N) ++ ['}']).reverse = _
    simp
  have hrev : b2.reverse ++ ('}' :: ('{' :: N).reverse) ++ a2.reverse =
      (s.dropWhile pyWsB).reverse := by
    rw [← hab2, ← hrevtok]
    simp
  have h2 : '}' :: ('{' :: N).reverse <:+:
      ((s.dropWhile pyWsB).reverse).dropWhile pyWsB :=
    dropWhile_keeps_infix pyWsB '}' (('{' :: N).reverse) (by decide)
      b2.reverse a2.reverse _ hrev
  show placeholder N <:+: (((s.dropWhile pyWsB).reverse).dropWhile pyWsB).reverse
  apply List.reverse_infix.mp
  rw [List.reverse_reverse, hrevtok]
  exact h2

/-- C8: a placeholder token `{Name}` whose name is none of the seven keys,
has no interior braces and no sanitized characters, and occurs in the
template, occurs literally in the output of `generate_new_filename`.  (No
assumption on the substituted values is needed: a key occurrence can never
overlap such a token.) -/
theorem c8_unmatched_placeholder (ch : List Char) (info : EpisodeInfo)
    (template N : List Char) (hN1 : '{' ∉ N) (hN2 : '}' ∉ N)
    (hk1 : N ≠ "Season".data) (hk2 : N ≠ "Episode".data)
    (hk3 : N ≠ "ShowName".data) (hk4 : N ≠ "Quality".data)
    (hk5 : N ≠ "Audio".data) (hk6 : N ≠ "Channel".data)
    (hk7 : N ≠ "Extension".data)
    (hinv : ∀ c ∈ N, c ∉ invalidChars)
    (ht : placeholder N <:+: template) :
    placeholder N <:+: generate_new_filename ch info template := by
  have hstep : ∀ (K v s : List Char), '{' ∉ K → '}' ∉ K → N ≠ K →
      placeholder N <:+: s → placeholder N <:+: replaceAll (placeholder K) v s := by
    intro K v s hK1 hK2 hNK hs
    exact replaceAllF_keeps_token N K v hN1 hN2 hK1 hK2 hNK s.length s le_rfl hs
  have ht1 : placeholder N <:+:
      (if extSuffix.isSuffixOf template then template.take (template.length - 12)
        else template) := by
    split
    · rename_i hsfx
      rw [List.isSuffixOf_iff_suffix] at hsfx
      obtain ⟨X, hX⟩ := hsfx
      have hlen12 : extSuffix.length = 12 := by decide
      have hlen : template.length - 12 = X.length := by
        rw [← hX]
        simp [List.length_append, hlen12]
      rw [hlen, ← hX, List.take_left]
      exact token_infix_of_infix_suffix N X hN1 hk7 (hX ▸ ht)
    · exact ht
  simp only [generate_new_filename, replacementsList, List.foldl_cons,
    List.foldl_nil, safe_filename, replaceInvalid]
  apply pyStrip_keeps_token
  apply foldl_replace_keeps
  · intro c hc
    rcases List.mem_cons.mp hc with h | h
    · subst h; decide
    · rcases List.mem_append.mp h with h2 | h2
      · exact hinv c h2
      · simp only [List.mem_singleton] at h2
        subst h2; decide
  · have hbody : placeholder N <:+:
        replaceAll (placeholder ("Extension".data)) (pyOrStr info.extension (".mkv".data))
          (replaceAll (placeholder ("Channel".data)) (pyOrStr ch ("Unknown".data))
            (replaceAll (placeholder ("Audio".data)) (pyOrStr info.audio ("Unknown".data))
              (replaceAll (placeholder ("Quality".data)) (pyOrStr info.quality ("Unknown".data))
                (replaceAll (placeholder ("ShowName".data)) (pyOrStr info.show_name ("Unknown Show".data))
                  (replaceAll (placeholder ("Episode".data)) (episodeField info.episode)
                    (replaceAll (placeholder ("Season".data)) (seasonField info.season)
                      (if extSuffix.isSuffixOf template then
                        template.take (template.length - 12)
                      else template))))))) := by
      apply hstep _ _ _ (by decide) (by decide) hk7
      apply hstep _ _ _ (by decide) (by decide) hk6
      apply hstep _ _ _ (by decide) (by decide) hk5
      apply hstep _ _ _ (by decide) (by decide) hk4
      apply hstep _ _ _ (by decide) (by decide) hk3
      apply hstep _ _ _ (by decide) (by decide) hk2
      apply hstep _ _ _ (by decide) (by decide) hk1
      exact ht1
    obtain ⟨x, y, hxy⟩ := hbody
    exact ⟨x, y ++ pyOrStr info.extension (".mkv".data), by rw [← hxy]; simp⟩

/-- Witness for C8: the token `{Seaso}` (a typo of `{Season}`) in the
template `x{Seaso}y` survives into the generated filename. -/
theorem c8_unmatched_placeholder_witness :
    ('{' ∉ "Seaso".data ∧ '}' ∉ "Seaso".data ∧
      "Seaso".data ≠ "Season".data ∧ "Seaso".data ≠ "Episode".data ∧
      "Seaso".data ≠ "ShowName".data ∧ "Seaso".data ≠ "Quality".data ∧
      "Seaso".data ≠ "Audio".data ∧ "Seaso".data ≠ "Channel".data ∧
      "Seaso".data ≠ "Extension".data ∧
      (∀ c ∈ "Seaso".data, c ∉ invalidChars) ∧
      placeholder ("Seaso".data) <:+: "x{Seaso}y".data) ∧
    placeholder ("Seaso".data) <:+: generate_new_filename [] { } ("x{Seaso}y".data) :=
  ⟨⟨by decide, by decide, by decide, by decide, by decide, by decide, by decide,
      by decide, by decide, by decide, ⟨['x'], ['y'], by decide⟩⟩,
    c8_unmatched_placeholder [] { } _ _ (by decide) (by decide) (by decide)
      (by decide) (by decide) (by decide) (by decide) (by decide) (by decide)
      (by decide) ⟨['x'], ['y'], by decide⟩⟩
